import Mathlib

/-!
# Verification of the Ecoli-Phylogeny text pipeline

Shallow embedding of the text/byte transformation core of
`build_tree_parsnp.py`: `ascii_clean_bytes`, `sanitize_fasta`,
`clean_all_fastas`, `build_name_map` and `newick_tip_renamer`.

Files are modeled as `List Char` (the inputs of interest are ASCII, and
`ascii_clean_bytes` restricts to bytes 9, 10, 13 and 0x20-0x7E, all of which
are single ASCII characters); Python's text-mode reads are modeled by
translating universal newlines and splitting into lines that keep their
terminator, exactly as `for line in f` yields them.
-/

namespace EcoliPhylo

/-- The single-quote character (code 39), named to keep quote characters out
of the literals below. -/
def sq : Char := Char.ofNat 39

/-- The double-quote character (code 34). -/
def dq : Char := Char.ofNat 34

/-- Python's ASCII whitespace: the characters matched by `str.isspace` and
by the regex class `\s` on ASCII text. -/
def isPySpace (c : Char) : Bool :=
  c == ' ' || c == '\t' || c == '\n' || c == '\r' ||
  c == Char.ofNat 11 || c == Char.ofNat 12

/-- build_tree_parsnp.py:29-38 `ascii_clean_bytes` — keep bytes 9, 10, 13
and the printable range `0x20`-`0x7E`; delete everything else, preserving
order. -/
def ascii_clean_bytes (s : List Char) : List Char :=
  s.filter (fun c =>
    c == '\t' || c == '\n' || c == '\r' ||
    (decide (32 ≤ c.toNat) && decide (c.toNat ≤ 126)))

/-- Python text-mode universal-newline translation: each `\r\n` pair and
each lone `\r` becomes `\n`.  A `\r` directly followed by `\n` is dropped
(the following `\n` survives on its own); any other `\r` becomes `\n`. -/
def univNL : List Char → List Char
  | [] => []
  | c :: rest =>
    if c = '\r' ∧ rest.head? = some '\n' then univNL rest
    else (if c = '\r' then '\n' else c) :: univNL rest

/-- Python `for line in f` on newline-translated text: split after every
`\n`, each piece keeping its terminator; a last piece without `\n` is still
yielded; nothing is yielded for empty input. -/
def pyLinesAux : List Char → List Char → List (List Char)
  | [], acc => if acc = [] then [] else [acc.reverse]
  | c :: rest, acc =>
    if c = '\n' then (acc.reverse ++ ['\n']) :: pyLinesAux rest []
    else pyLinesAux rest (c :: acc)

/-- The lines of a text, as Python file iteration yields them. -/
def pyLines (s : List Char) : List (List Char) := pyLinesAux s []

/-- Remove every trailing character satisfying `p` (Python `rstrip`). -/
def rstripP (p : Char → Bool) : List Char → List Char
  | [] => []
  | c :: rest =>
    if (rstripP p rest) = [] ∧ p c = true then [] else c :: rstripP p rest

/-- Remove every leading and trailing character satisfying `p`
(Python `strip` with a character class). -/
def stripP (p : Char → Bool) (s : List Char) : List Char :=
  rstripP p (s.dropWhile p)

/-- Python `str.strip()` (no argument): strip ASCII whitespace. -/
def pyStrip (s : List Char) : List Char := stripP isPySpace s

/-- Python `str.strip(x)` for a single character `x`. -/
def stripChar (x : Char) (s : List Char) : List Char :=
  stripP (fun c => c == x) s

/-- Replace every maximal run of characters satisfying `p` by the single
character `r`; `inRun` records whether the previous character was in a run.
This is `re.sub(p+, r, s)` for a character class `p`. -/
def collapseRunsAux (p : Char → Bool) (r : Char) : Bool → List Char → List Char
  | _, [] => []
  | inRun, c :: rest =>
    if p c then
      (if inRun then [] else [r]) ++ collapseRunsAux p r true rest
    else c :: collapseRunsAux p r false rest

/-- Replace every maximal run of characters satisfying `p` by `r`. -/
def collapseRuns (p : Char → Bool) (r : Char) (s : List Char) : List Char :=
  collapseRunsAux p r false s

/-- build_tree_parsnp.py:51 — the character class kept by the header
substitution `re.sub(r"[^A-Za-z0-9_.:\|\- ]", "_", h)`: letters, digits,
`_`, `.`, `:`, `|`, `-` and the space.  Note `>` is NOT in the class. -/
def headerKeep (c : Char) : Bool :=
  decide ('A' ≤ c ∧ c ≤ 'Z') || decide ('a' ≤ c ∧ c ≤ 'z') ||
  decide ('0' ≤ c ∧ c ≤ '9') ||
  c == '_' || c == '.' || c == ':' || c == '|' || c == '-' || c == ' '

/-- build_tree_parsnp.py:49-52 — a header line after `rstrip("\n")`, the
keep-class substitution and the whitespace collapse `re.sub(r"\s+","_",h)`. -/
def headerCore (line : List Char) : List Char :=
  collapseRuns isPySpace '_'
    ((rstripP (fun c => c == '\n') line).map
      (fun c => if headerKeep c then c else '_'))

/-- build_tree_parsnp.py:48-55 — the full header branch of `sanitize_fasta`,
including the `">unknown"` guard and the re-appended newline. -/
def sanitizeHeader (line : List Char) : List Char :=
  (if headerCore line = ['>'] ∨ pyStrip (headerCore line) = []
   then ">unknown".toList
   else headerCore line) ++ ['\n']

/-- build_tree_parsnp.py:57 — the character class kept on sequence lines. -/
def seqKeep (c : Char) : Bool := decide (c ∈ "ACGTNacgtn".toList)

/-- build_tree_parsnp.py:46-59 — `sanitize_fasta` on one line as Python
yields it: a line starting with `>` goes through the header branch; any
other line is filtered to the nucleotide class and uppercased, with NOTHING
re-appending the terminator (`fout.write(seq.upper())`). -/
def sanitizeLine (line : List Char) : List Char :=
  if line.head? = some '>' then sanitizeHeader line
  else (line.filter seqKeep).map Char.toUpper

/-- build_tree_parsnp.py:40-59 — `sanitize_fasta` over a whole file: the
text-mode read (universal newlines), line iteration, and concatenation of
the per-line outputs. -/
def sanitize_fasta (s : List Char) : List Char :=
  ((pyLines (univNL s)).map sanitizeLine).flatten

/-- The composite applied to every input file by `clean_all_fastas`
(build_tree_parsnp.py:74-76): byte cleaning then FASTA normalization. -/
def normContent (s : List Char) : List Char :=
  sanitize_fasta (ascii_clean_bytes s)

/-! ## NewickRetokenizer (`newick_tip_renamer`, build_tree_parsnp.py:128-166) -/

/-- A name mapping, modeling the Python dict passed to
`newick_tip_renamer` (identifier to display name). -/
abbrev NMap := List (List Char × List Char)

/-- Python `mapping.get(k)`: the value of the first pair whose key is `k`. -/
def mapGet (m : NMap) (k : List Char) : Option (List Char) :=
  (m.find? (fun kv => decide (kv.1 = k))).map Prod.snd

/-- build_tree_parsnp.py:141 — `tok.strip(quotes)`: remove ALL leading and
trailing single- or double-quote characters, in any mixture. -/
def stripQuotes (tok : List Char) : List Char :=
  stripP (fun c => c == sq || c == dq) tok

/-- build_tree_parsnp.py:139-143 — flushing the accumulator: an empty token
emits nothing; otherwise the quote-stripped token is looked up and the
mapped value is emitted on a hit, the ORIGINAL token on a miss. -/
def flushTok (m : NMap) (tok : List Char) : List Char :=
  if tok = [] then [] else (mapGet m (stripQuotes tok)).getD tok

/-- build_tree_parsnp.py:136-160 — the delimiter class of the scanner: the
structural characters, `:` and every whitespace character.  All three
delimiter branches of the loop behave identically (flush, then emit the
delimiter verbatim). -/
def isNewickDelim (c : Char) : Bool :=
  c == '(' || c == ')' || c == ',' || c == ';' || c == ':' || isPySpace c

/-- build_tree_parsnp.py:134-160 — the scanner loop with its accumulator
`tok`.  Note the loop ends WITHOUT flushing a residual token: on end of
input the accumulator is discarded. -/
def nrGo (m : NMap) : List Char → List Char → List Char
  | [], _ => []
  | c :: rest, tok =>
    if isNewickDelim c then flushTok m tok ++ c :: nrGo m rest []
    else nrGo m rest (tok ++ [c])

/-- build_tree_parsnp.py:128-166 — `newick_tip_renamer` over a whole text
(the file is read in text mode, hence the newline translation). -/
def newick_tip_renamer (m : NMap) (s : List Char) : List Char :=
  nrGo m (univNL s) []

/-- Modeled from the claim's words, as the comparator for claim C5: a token
stripped of ONE surrounding layer of quotes — first and last character
removed when they are the same quote character. -/
def stripOneQuoteLayer : List Char → List Char
  | [] => []
  | c :: rest =>
    if (c = sq ∨ c = dq) ∧ rest.getLast? = some c then rest.dropLast
    else c :: rest

/-- Modeled from the claim's words (C5 comparator): the flush rule with
one-layer quote stripping. -/
def claimFlush (m : NMap) (tok : List Char) : List Char :=
  if tok = [] then [] else (mapGet m (stripOneQuoteLayer tok)).getD tok

/-- Modeled from the claim's words (C5 comparator): the scanner as the claim
describes it — one-layer stripping, and the residual token flushed at end of
input. -/
def nrGoClaim (m : NMap) : List Char → List Char → List Char
  | [], tok => claimFlush m tok
  | c :: rest, tok =>
    if isNewickDelim c then claimFlush m tok ++ c :: nrGoClaim m rest []
    else nrGoClaim m rest (tok ++ [c])

/-! ## NameMapBuilder (`build_name_map`, build_tree_parsnp.py:168-192) -/

/-- Lowercase a string characterwise (the effect of `re.IGNORECASE` is
modeled by comparing lowercased text). -/
def lowerL (s : List Char) : List Char := s.map Char.toLower

/-- An end-anchored alternation `re.sub(r"(a1|...|ak)$", rep, s)` of literal
words, case-insensitively: regex substitution takes the leftmost match, and
an end-anchored match starting at position `p` is exactly the condition that
the lowercased suffix from `p` is one of the alternatives; so the LONGEST
alternative occurring as a suffix is replaced. -/
def subAltsEnd (alts : List (List Char)) (rep : List Char) : List Char → List Char
  | [] => if ([] : List Char) ∈ alts then rep else []
  | c :: rest =>
    if lowerL (c :: rest) ∈ alts then rep
    else c :: subAltsEnd alts rep rest

/-- build_tree_parsnp.py:186 — the lowercased alternatives of
`(complete_?genome|chromosome|scaffold|contig|assembly)`.  The `_?` makes
the underscore optional; a SPACE variant is not matched. -/
def boilerAlts : List (List Char) :=
  ["complete_genome", "completegenome", "chromosome", "scaffold",
   "contig", "assembly"].map String.toList

/-- build_tree_parsnp.py:186 — remove the trailing boilerplate word. -/
def stripBoiler (s : List Char) : List Char := subAltsEnd boilerAlts [] s

/-- Modeled from the spec's words, as the comparator for claim C7: remove
one trailing boilerplate suffix, matched case-insensitively at the end of
the string. -/
def specStripSuffix (s : List Char) : List Char :=
  match boilerAlts.find? (fun suf => decide (suf <:+ lowerL s)) with
  | some suf => s.take (s.length - suf.length)
  | none => s

/-- build_tree_parsnp.py:176-182 — the first header of a cleaned file:
`line[1:].strip()` of the first line starting with `>`, and the sentinel
`"?"` when no such line exists. -/
def firstHeaderText : List (List Char) → List Char
  | [] => "?".toList
  | l :: rest =>
    if l.head? = some '>' then pyStrip l.tail else firstHeaderText rest

/-- build_tree_parsnp.py:176-190 — the display name of one record: first
header, boilerplate removal, `re.sub(r"__+","_",·)`, `strip("_")`, and the
fall-back to the identifier when the result is empty. -/
def niceName (stem : List Char) (fileLines : List (List Char)) : List Char :=
  if stripChar '_' (collapseRuns (fun c => c == '_') '_'
       (stripBoiler (firstHeaderText fileLines))) = []
  then stem
  else stripChar '_' (collapseRuns (fun c => c == '_') '_'
       (stripBoiler (firstHeaderText fileLines)))

/-- Python `os.path.splitext(basename)[0]`: cut at the last dot, provided a
non-dot character occurs before it (leading dots never start an
extension). -/
def splitextStem (name : List Char) : List Char :=
  match (List.range name.length).reverse.find?
      (fun i => name.get? i == some '.'
        && (List.range i).any (fun j => !(name.get? j == some '.'))) with
  | some i => name.take i
  | none => name

/-- Python dict assignment `mp[k] = v` on an insertion-ordered dict: replace
in place if the key exists, append otherwise. -/
def dictInsert (m : NMap) (k v : List Char) : NMap :=
  if k ∈ m.map Prod.fst
  then m.map (fun p => if p.1 = k then (k, v) else p)
  else m ++ [(k, v)]

/-- build_tree_parsnp.py:172-191 — one step of the `build_name_map` loop:
the record's stem mapped to its display name (the file is read in text
mode). -/
def bnmStep (mp : NMap) (f : List Char × List Char) : NMap :=
  dictInsert mp (splitextStem f.1)
    (niceName (splitextStem f.1) (pyLines (univNL f.2)))

/-- build_tree_parsnp.py:168-192 — `build_name_map` over the cleaned files,
each given as (basename, content). -/
def build_name_map (files : List (List Char × List Char)) : NMap :=
  files.foldl bnmStep []

/-! ## clean_all_fastas (build_tree_parsnp.py:62-91) -/

/-- build_tree_parsnp.py:69 — the alternatives of
`re.sub(r"\.\.f(ast|na|a|as)$", ".fasta", base, re.IGNORECASE)`. -/
def dotdotAlts : List (List Char) :=
  ["..fast", "..fna", "..fa", "..fas"].map String.toList

/-- build_tree_parsnp.py:72 — the alternatives of
`re.sub(r"\.(fa|fna|fas)$", ".fasta", base, re.IGNORECASE)`. -/
def extAlts : List (List Char) :=
  [".fa", ".fna", ".fas"].map String.toList

/-- build_tree_parsnp.py:67-73 — the basename rewriting: the double-dot
fix, the extension normalization (only when the name does not already end
in `.fasta`), and the `unnamed.fasta` guard. -/
def rewriteBase (b : List Char) : List Char :=
  let b1 := subAltsEnd dotdotAlts ".fasta".toList b
  let b2 := if ".fasta".toList <:+ lowerL b1 then b1
            else subAltsEnd extAlts ".fasta".toList b1
  if lowerL b2 = ".fasta".toList then "unnamed.fasta".toList else b2

/-- Lexicographic comparison of two names, byte by byte (the order of
Python `sorted` on ASCII strings). -/
def pathLe : List Char → List Char → Bool
  | [], _ => true
  | _ :: _, [] => false
  | a :: as_, b :: bs => if a = b then pathLe as_ bs else decide (a < b)

/-- Insert into a sorted list (stable, duplicates kept). -/
def insertLe (a : List Char) : List (List Char) → List (List Char)
  | [] => [a]
  | b :: bs => if pathLe a b then a :: b :: bs else b :: insertLe a bs

/-- Python `sorted` on a list of names (insertion sort; `pathLe` is a total
order, so this agrees with any correct sort). -/
def sortPaths (l : List (List Char)) : List (List Char) :=
  l.foldr insertLe []

/-- One write into the WORK directory: later writes to the same basename
overwrite earlier ones. -/
def storeWrite (st : List Char → Option (List Char)) (k v : List Char) :
    List Char → Option (List Char) :=
  fun q => if q = k then some v else st q

/-- build_tree_parsnp.py:66-77 — the WORK directory after the cleaning
loop: every source is byte-cleaned, normalized and written to its rewritten
basename, in order. -/
def buildStore (sources : List (List Char × List Char))
    (st : List Char → Option (List Char)) : List Char → Option (List Char) :=
  match sources with
  | [] => st
  | f :: tl => buildStore tl (storeWrite st (rewriteBase f.1) (normContent f.2))

/-- build_tree_parsnp.py:78-89 — the retained paths: the (sorted, possibly
duplicated) cleaned paths whose final file content is non-empty
(`os.path.getsize(fp) > 0`). -/
def keptOf (sources : List (List Char × List Char)) : List (List Char) :=
  (sortPaths (sources.map (fun f => rewriteBase f.1))).filter
    (fun p => !((buildStore sources (fun _ => none) p).getD []).isEmpty)

/-- build_tree_parsnp.py:62-91 — `clean_all_fastas` on the sorted source
list, each source given as (basename, raw content).  Returns each kept path
paired with the content of the file at that path (as the later
`build_name_map` reads it); fails when no sources exist or when every
cleaned file is empty. -/
def clean_all_fastas (sources : List (List Char × List Char)) :
    Except String (List (List Char × List Char)) :=
  if sources = [] then .error "No FASTA files found"
  else if keptOf sources = [] then
    .error "All cleaned FASTAs are empty after sanitization."
  else .ok ((keptOf sources).map
    (fun p => (p, (buildStore sources (fun _ => none) p).getD [])))

/-! ## Concrete inputs used by the theorems below -/

/-- The spec's running example header line, with its terminator. -/
def exHeaderLine : List Char :=
  ">NC_000913.3 Escherichia coli str. K-12 complete genome\n".toList

/-- What `sanitize_fasta` actually produces for `exHeaderLine`. -/
def exHeaderOut : List Char :=
  "_NC_000913.3_Escherichia_coli_str._K-12_complete_genome\n".toList

/-- The spec's example mapping seqA to Ecoli_K12, seqB to Ecoli_O157. -/
def exMap : NMap :=
  [("seqA".toList, "Ecoli_K12".toList), ("seqB".toList, "Ecoli_O157".toList)]

/-- A doubly-quoted token followed by a branch length and a trailing token:
the input separating the code's flush rule from the claimed one. -/
def c5input : List Char :=
  [sq, sq] ++ "seqA".toList ++ [sq, sq] ++ ":1;tail".toList

/-- A mapping whose display name contains structural characters. -/
def c6map : NMap := [("a".toList, "(((".toList)]

/-- Two sources whose basenames collide after rewriting, the second of
which cleans to an empty file. -/
def c8sources : List (List Char × List Char) :=
  [("a.fa".toList, ">x\nACGT\n".toList), ("a.fna".toList, "!!!".toList)]

/-- Two sources whose basenames collide after rewriting, both cleaning to
non-empty files. -/
def c9sources : List (List Char × List Char) :=
  [("a.fa".toList, ">a\nAC\n".toList), ("a.fna".toList, ">b\nGG\n".toList)]

/-! ## Theorems -/

set_option maxRecDepth 8000

/-- C1: REFUTED on the code.  The header substitution class
`[^A-Za-z0-9_.:\|\- ]` does not contain `>`, so the leading `>` of every
header is itself replaced by `_`: the spec's example header normalizes to
`_NC_000913.3_Escherichia_coli_str._K-12_complete_genome`, which does not
begin with `>`. -/
theorem c1_eval :
    sanitize_fasta exHeaderLine = exHeaderOut ∧
    exHeaderOut.head? = some '_' ∧
    ¬ exHeaderOut.head? = some '>' := by
  refine ⟨by decide, by decide, by decide⟩

/-- C2: REFUTED on the code.  The sequence-line substitution
`re.sub(r"[^ACGTNacgtn]", "", line)` deletes the terminator `\n` along with
the junk, and `fout.write(seq.upper())` re-appends nothing: `acgtXYZacgt\n`
becomes `ACGTACGT` with NO terminator, and consecutive sequence lines are
merged (here `acgt\n` and `TT\n` fuse into `ACGTTT`). -/
theorem c2_eval :
    sanitize_fasta "acgtXYZacgt\n".toList = "ACGTACGT".toList ∧
    ¬ sanitize_fasta "acgtXYZacgt\n".toList = "ACGTACGT\n".toList ∧
    sanitize_fasta ">h\nacgt\nTT\n".toList = "_h\nACGTTT".toList := by
  refine ⟨by decide, by decide, by decide⟩

/-- C4: REFUTED on the code.  A file already in the canonical form the spec
describes (header `>A`, sequence `ACGT`, each line terminated) is NOT a
fixed point of ByteSanitizer + FastaNormalizer: the header's `>` becomes
`_` and the sequence terminator is dropped. -/
theorem c4_eval :
    normContent ">A\nACGT\n".toList = "_A\nACGT".toList ∧
    ¬ normContent ">A\nACGT\n".toList = ">A\nACGT\n".toList := by
  refine ⟨by decide, by decide⟩

/-- C5 counterexample: on the token `''seqA''` the code strips BOTH quote
layers (`strip` removes all leading/trailing quote characters), finds
`seqA` in the mapping and substitutes — while the claimed one-layer rule
strips to `'seqA'`, misses, and leaves the token unchanged.  The code also
discards the residual token `tail` at end of input instead of flushing it.
So on `''seqA'':1;tail` the code and the claim disagree. -/
theorem c5_cex :
    newick_tip_renamer exMap c5input = "Ecoli_K12:1;".toList ∧
    nrGoClaim exMap c5input [] = c5input ∧
    ¬ newick_tip_renamer exMap c5input = nrGoClaim exMap c5input [] := by
  refine ⟨by decide, by decide, by decide⟩

/-- C6 counterexample: the count of `(` is NOT preserved for every mapping —
a mapped display name may itself contain structural characters, which the
flush emits into the output.  With `a` mapped to `(((`, the input `a;` has
no `(` but the output has three. -/
theorem c6_cex :
    (newick_tip_renamer c6map "a;".toList).count '(' = 3 ∧
    ("a;".toList).count '(' = 0 := by
  refine ⟨by decide, by decide⟩

/-- C7 counterexample: the suffix regex `(complete_?genome|...)$` allows an
optional UNDERSCORE between `complete` and `genome` but not a space, so the
spec's suffix `"complete genome"` (space variant) is never stripped: a
record whose header is `>X complete genome` keeps the boilerplate in its
display name instead of becoming `X`. -/
theorem c7_cex :
    build_name_map [("s.fasta".toList, ">X complete genome\n".toList)]
      = [("s".toList, "X complete genome".toList)] ∧
    ¬ build_name_map [("s.fasta".toList, ">X complete genome\n".toList)]
      = [("s".toList, "X".toList)] := by
  refine ⟨by decide, by decide⟩

/-- C8 counterexample: with colliding rewritten basenames the second half
of the claim fails — `a.fa` cleans to a non-empty file, but `a.fna`
rewrites to the same basename `a.fasta` and overwrites it with an empty
file, so the run aborts with AllInputsEmptied even though one input had a
non-empty normalization. -/
theorem c8_cex :
    ¬ normContent ">x\nACGT\n".toList = [] ∧
    clean_all_fastas c8sources
      = .error "All cleaned FASTAs are empty after sanitization." := by
  refine ⟨by decide, by rfl⟩

/-- C9 counterexample: identifiers are NOT unique per input file — the two
distinct inputs `a.fa` and `a.fna` both rewrite to basename `a.fasta`,
hence to the same identifier `a`; the pipeline then retains two records but
the mapping has a single entry. -/
theorem c9_cex :
    splitextStem (rewriteBase "a.fa".toList)
      = splitextStem (rewriteBase "a.fna".toList) ∧
    clean_all_fastas c9sources
      = .ok [("a.fasta".toList, "_b\nGG".toList),
             ("a.fasta".toList, "_b\nGG".toList)] ∧
    (build_name_map [("a.fasta".toList, "_b\nGG".toList),
                     ("a.fasta".toList, "_b\nGG".toList)]).length = 1 ∧
    c9sources.length = 2 := by
  refine ⟨by decide, by rfl, by decide, by decide⟩

/-! ### Helper lemmas -/

/-- `rstripP` keeps a head that does not satisfy the predicate. -/
theorem rstripP_cons_of_neg (p : Char → Bool) (c : Char) (rest : List Char)
    (h : p c = false) : rstripP p (c :: rest) = c :: rstripP p rest := by
  simp [rstripP, h]

/-- `pyStrip` of a list whose head is not whitespace is never empty. -/
theorem pyStrip_cons_ne (c : Char) (L : List Char) (h : isPySpace c = false) :
    ¬ pyStrip (c :: L) = [] := by
  simp [pyStrip, stripP, List.dropWhile_cons, h, rstripP]

/-- The header substitution rewrites the leading `>` to `_`, so the header
core of a `>`-line always starts with `_`. -/
theorem headerCore_gt (t : List Char) :
    headerCore ('>' :: t) = '_' :: collapseRunsAux isPySpace '_' false
      ((rstripP (fun c => c == '\n') t).map
        (fun c => if headerKeep c then c else '_')) := by
  simp only [headerCore, collapseRuns]
  rw [rstripP_cons_of_neg _ _ _ (by decide)]
  simp only [List.map_cons, show headerKeep '>' = false from by decide,
    Bool.false_eq_true, if_false]
  simp [collapseRunsAux, show isPySpace '_' = false from by decide]

/-- C3: REFUTED on the code.  The `">unknown"` placeholder branch is
unreachable: after the substitution the header always starts with `_`
(the leading `>` itself was replaced), so it is never `">"` and never
strips to empty — a bare `>` header comes out as `_`, not `>unknown`. -/
theorem c3_thm :
    (∀ t : List Char, (sanitizeLine ('>' :: t)).head? = some '_' ∧
      ¬ sanitizeLine ('>' :: t) = ">unknown\n".toList) ∧
    sanitize_fasta ">\n".toList = "_\n".toList := by
  constructor
  · intro t
    obtain ⟨L, hL⟩ : ∃ L, headerCore ('>' :: t) = '_' :: L :=
      ⟨_, headerCore_gt t⟩
    have hguard : ¬ (('_' : Char) :: L = ['>'] ∨
        pyStrip ('_' :: L) = []) := by
      push_neg
      exact ⟨by simp, pyStrip_cons_ne '_' L (by decide)⟩
    have hline : sanitizeLine ('>' :: t) = '_' :: (L ++ ['\n']) := by
      simp only [sanitizeLine, List.head?_cons, ↓reduceIte]
      simp only [sanitizeHeader, hL, if_neg hguard, List.cons_append]
    refine ⟨by rw [hline]; rfl, ?_⟩
    rw [hline]
    intro h
    have h2 : (('_' : Char) :: (L ++ ['\n'])).head? = (">unknown\n".toList).head? :=
      congrArg List.head? h
    simp at h2
  · decide

/-- The scanner accumulates a run of non-delimiter characters into the
token buffer. -/
theorem nrGo_nondelim_accum (m : NMap) :
    ∀ (w rest tok : List Char),
      (∀ c ∈ w, isNewickDelim c = false) →
      nrGo m (w ++ rest) tok = nrGo m rest (tok ++ w) := by
  intro w
  induction w with
  | nil => intro rest tok _; simp
  | cons c w ih =>
    intro rest tok h
    have hc : isNewickDelim c = false := h c (by simp)
    simp only [List.cons_append, nrGo, hc, Bool.false_eq_true, if_false,
      List.append_eq]
    rw [ih _ _ (fun x hx => h x (by simp [hx]))]
    simp

/-- C5 (amended): the flush rule strips ALL surrounding quote characters
(not one layer) before lookup, emitting the mapped value on a hit and the
original token (quotes included) on a miss; the flush happens only at a
delimiter — a residual token at end of input is discarded, not flushed.
The spec's concrete example is unaffected and holds. -/
theorem c5_thm :
    (∀ (m : NMap) (w : List Char) (d : Char) (rest : List Char),
      (∀ c ∈ w, isNewickDelim c = false) → isNewickDelim d = true →
      nrGo m (w ++ d :: rest) [] = flushTok m w ++ d :: nrGo m rest [] ∧
      nrGo m w [] = []) ∧
    newick_tip_renamer exMap "(seqA:0.1,seqB:0.2):0.05;".toList
      = "(Ecoli_K12:0.1,Ecoli_O157:0.2):0.05;".toList := by
  constructor
  · intro m w d rest hw hd
    constructor
    · rw [nrGo_nondelim_accum m w (d :: rest) [] hw]
      simp [nrGo, hd]
    · have h := nrGo_nondelim_accum m w [] [] hw
      simpa [nrGo] using h
  · decide

/-- C5 witness: the flush equation and the end-of-input discard at the
concrete token `seqA` before the delimiter `:`. -/
theorem c5_thm_w :
    ((∀ c ∈ "seqA".toList, isNewickDelim c = false) ∧
      isNewickDelim ':' = true) ∧
    (nrGo exMap ("seqA".toList ++ ':' :: "0.1;".toList) []
        = flushTok exMap "seqA".toList ++ ':' :: nrGo exMap "0.1;".toList [] ∧
      nrGo exMap "seqA".toList [] = []) :=
  ⟨⟨by decide, by decide⟩,
    c5_thm.1 exMap "seqA".toList ':' "0.1;".toList (by decide) (by decide)⟩

/-- Newline translation does not change the count of any character other
than `\r` and `\n`. -/
theorem count_univNL (x : Char) (hx1 : ¬ x = '\r') (hx2 : ¬ x = '\n') :
    ∀ s : List Char, (univNL s).count x = s.count x := by
  intro s
  induction s with
  | nil => rfl
  | cons c rest ih =>
    simp only [univNL]
    by_cases h : c = '\r' ∧ rest.head? = some '\n'
    · rw [if_pos h, ih, List.count_cons]
      have hcx : ¬ c = x := by
        rw [h.1]
        intro hh
        exact hx1 hh.symm
      simp [hcx]
    · rw [if_neg h, List.count_cons, List.count_cons, ih]
      congr 1
      by_cases hc : c = '\r'
      · subst hc
        rw [if_pos rfl, if_neg (fun hh => hx2 (eq_of_beq hh).symm),
          if_neg (fun hh => hx1 (eq_of_beq hh).symm)]
      · rw [if_neg hc]

/-- A successful `mapGet` returns the value of some pair of the mapping. -/
theorem mapGet_mem (m : NMap) (k v : List Char) (h : mapGet m k = some v) :
    ∃ kv ∈ m, kv.2 = v := by
  unfold mapGet at h
  rcases Option.map_eq_some'.mp h with ⟨kv, hfind, hsnd⟩
  exact ⟨kv, List.mem_of_find?_eq_some hfind, hsnd⟩

/-- Flushing a token made of non-delimiter characters emits no occurrence
of a delimiter character `x`, provided no mapped value contains `x`. -/
theorem count_flushTok (m : NMap) (x : Char) (tok : List Char)
    (hx : isNewickDelim x = true)
    (htok : ∀ c ∈ tok, isNewickDelim c = false)
    (hm : ∀ kv ∈ m, x ∉ kv.2) :
    (flushTok m tok).count x = 0 := by
  unfold flushTok
  split
  · simp
  · cases hget : mapGet m (stripQuotes tok) with
    | none =>
      simp only [hget, Option.getD_none]
      rw [List.count_eq_zero]
      intro hmem
      rw [htok x hmem] at hx
      cases hx
    | some v =>
      simp only [hget, Option.getD_some]
      rw [List.count_eq_zero]
      obtain ⟨kv, hkv, rfl⟩ := mapGet_mem m _ v hget
      exact hm kv hkv

/-- The scanner preserves the count of every delimiter character whose
occurrences no mapped value contains. -/
theorem count_nrGo (m : NMap) (x : Char) (hx : isNewickDelim x = true)
    (hm : ∀ kv ∈ m, x ∉ kv.2) :
    ∀ (s tok : List Char), (∀ c ∈ tok, isNewickDelim c = false) →
      (nrGo m s tok).count x = s.count x := by
  intro s
  induction s with
  | nil => intro tok _; simp [nrGo]
  | cons c rest ih =>
    intro tok htok
    simp only [nrGo]
    by_cases hc : isNewickDelim c = true
    · rw [if_pos hc]
      simp only [List.count_append, List.count_cons]
      rw [count_flushTok m x tok hx htok hm,
        ih [] (by intro a ha; simp at ha), Nat.zero_add]
    · have hcf : isNewickDelim c = false := by simpa using hc
      have htok' : ∀ a ∈ tok ++ [c], isNewickDelim a = false := by
        intro a ha
        rcases List.mem_append.mp ha with h1 | h1
        · exact htok a h1
        · simp only [List.mem_singleton] at h1
          subst h1
          exact hcf
      have hne : ¬ c = x := by
        intro hh
        rw [hh, hx] at hcf
        cases hcf
      rw [if_neg hc, ih (tok ++ [c]) htok']
      simp [List.count_cons, hne]

/-- C6 (amended): `newick_tip_renamer` preserves the count of each
structural character `(`, `)`, `,` and `;` between input and output for
every mapping whose display names contain none of that character — the
universal claim fails only because a mapped value can inject structural
characters (see the counterexample). -/
theorem c6_thm :
    ∀ (m : NMap) (s : List Char) (x : Char),
      x ∈ ['(', ')', ',', ';'] →
      (∀ kv ∈ m, x ∉ kv.2) →
      (newick_tip_renamer m s).count x = s.count x := by
  intro m s x hx hm
  have hfacts : isNewickDelim x = true ∧ ¬ x = '\r' ∧ ¬ x = '\n' := by
    simp only [List.mem_cons, List.not_mem_nil, or_false] at hx
    rcases hx with rfl | rfl | rfl | rfl <;> exact ⟨by decide, by decide, by decide⟩
  rw [newick_tip_renamer,
    count_nrGo m x hfacts.1 hm (univNL s) [] (by intro a ha; simp at ha),
    count_univNL x hfacts.2.1 hfacts.2.2]

/-- C6 witness: the count preservation at the spec's example input, for
the character `(` and the example mapping (whose values contain no
structural characters). -/
theorem c6_thm_w :
    (('(' : Char) ∈ ['(', ')', ',', ';'] ∧ ∀ kv ∈ exMap, '(' ∉ kv.2) ∧
    (newick_tip_renamer exMap "(seqA:0.1,seqB:0.2):0.05;".toList).count '('
      = ("(seqA:0.1,seqB:0.2):0.05;".toList).count '(' :=
  ⟨⟨by decide, by decide⟩,
    c6_thm exMap "(seqA:0.1,seqB:0.2):0.05;".toList '(' (by decide) (by decide)⟩

/-- A file with no `>` line yields the sentinel header text `?`. -/
theorem firstHeaderText_none (lines : List (List Char))
    (h : ∀ l ∈ lines, ¬ l.head? = some '>') :
    firstHeaderText lines = "?".toList := by
  induction lines with
  | nil => rfl
  | cons l rest ih =>
    simp only [firstHeaderText]
    rw [if_neg (h l (by simp))]
    exact ih (fun a ha => h a (by simp [ha]))

/-- C10: for a cleaned file containing no line that starts with `>`,
`build_name_map` assigns the sentinel display name `?` (and, it being
non-empty, the identifier fall-back is never taken for such files). -/
theorem c10_thm :
    ∀ (stem : List Char) (lines : List (List Char)) (path content : List Char),
      (∀ l ∈ lines, ¬ l.head? = some '>') →
      (∀ l ∈ pyLines (univNL content), ¬ l.head? = some '>') →
      niceName stem lines = "?".toList ∧
      build_name_map [(path, content)] = [(splitextStem path, "?".toList)] := by
  have key : ∀ (s : List Char) (ls : List (List Char)),
      (∀ l ∈ ls, ¬ l.head? = some '>') → niceName s ls = "?".toList := by
    intro s ls h
    have hf := firstHeaderText_none ls h
    simp only [niceName, hf]
    rw [if_neg (by decide)]
    decide
  intro stem lines path content h1 h2
  refine ⟨key stem lines h1, ?_⟩
  have hv := key (splitextStem path) (pyLines (univNL content)) h2
  simp [build_name_map, bnmStep, dictInsert, hv]

/-- C10 witness: a concrete header-less cleaned file receives display name
`?` rather than its identifier. -/
theorem c10_thm_w :
    niceName "g".toList ["ACGT\n".toList] = "?".toList ∧
    build_name_map [("g.fasta".toList, "ACGT\n".toList)]
      = [("g".toList, "?".toList)] := by
  have h := c10_thm "g".toList ["ACGT\n".toList] "g.fasta".toList
    "ACGT\n".toList (by decide) (by decide)
  exact ⟨h.1, h.2⟩

/-- `find?` only depends on the predicate's values on the list. -/
theorem find?_congr_on {α : Type} (l : List α) (p q : α → Bool)
    (h : ∀ a ∈ l, p a = q a) : l.find? p = l.find? q := by
  induction l with
  | nil => rfl
  | cons a l ih =>
    rw [List.find?_cons, List.find?_cons, h a (by simp)]
    cases q a with
    | false => exact ih (fun b hb => h b (by simp [hb]))
    | true => rfl

/-- No boilerplate alternative is a proper suffix of another, so at most
one of them can end a given string. -/
theorem boilerAlts_suffix_eq :
    ∀ a ∈ boilerAlts, ∀ b ∈ boilerAlts, a <:+ b → a = b := by decide

/-- The leftmost end-anchored regex match (`subAltsEnd`, scanning start
positions left to right) coincides with removing THE alternative that is a
suffix of the lowercased string: the code's `re.sub(r"(...)$","",nice)` is
exactly the end-anchored suffix removal the spec describes, over the
alternative set the regex actually denotes. -/
theorem stripBoiler_eq_spec : ∀ s : List Char, stripBoiler s = specStripSuffix s := by
  intro s
  induction s with
  | nil => decide
  | cons c rest ih =>
    have hl : lowerL (c :: rest) = Char.toLower c :: lowerL rest := by
      simp [lowerL]
    by_cases hmem : lowerL (c :: rest) ∈ boilerAlts
    · cases hfind : boilerAlts.find?
          (fun suf => decide (suf <:+ lowerL (c :: rest))) with
      | none =>
        exfalso
        have hno := List.find?_eq_none.mp hfind _ hmem
        simp at hno
      | some a =>
        have ha1 : a ∈ boilerAlts := List.mem_of_find?_eq_some hfind
        have ha2 : a <:+ lowerL (c :: rest) := by
          simpa using List.find?_some hfind
        have haeq : a = lowerL (c :: rest) :=
          boilerAlts_suffix_eq a ha1 _ hmem ha2
        simp only [stripBoiler, subAltsEnd, if_pos hmem, specStripSuffix,
          hfind, haeq]
        simp [lowerL]
    · have hcong : boilerAlts.find? (fun suf => decide (suf <:+ lowerL (c :: rest)))
          = boilerAlts.find? (fun suf => decide (suf <:+ lowerL rest)) := by
        apply find?_congr_on
        intro a ha
        rw [decide_eq_decide]
        constructor
        · intro hsuf
          rw [hl] at hsuf
          rcases List.suffix_cons_iff.mp hsuf with h1 | h1
          · exact absurd (by rw [h1, ← hl] at ha; exact ha) hmem
          · exact h1
        · intro hsuf
          rw [hl]
          exact hsuf.trans (List.suffix_cons _ _)
      have hunfold : stripBoiler (c :: rest) =
          if lowerL (c :: rest) ∈ boilerAlts then []
          else c :: stripBoiler rest := rfl
      rw [hunfold, if_neg hmem, ih]
      simp only [specStripSuffix, hcong]
      cases hfind : boilerAlts.find? (fun suf => decide (suf <:+ lowerL rest)) with
      | none => rfl
      | some a =>
        have ha2 : a <:+ lowerL rest := by
          simpa using List.find?_some hfind
        have hlen : a.length ≤ rest.length := by
          have hle := ha2.length_le
          simpa [lowerL] using hle
        simp only [List.length_cons]
        rw [Nat.succ_sub hlen, List.take_succ_cons]

/-- C7 (amended): the boilerplate suffix set the code strips is
`complete_genome`, `completegenome`, `chromosome`, `scaffold`, `contig`,
`assembly` — the regex `complete_?genome` admits an optional underscore
but NOT the spec's space variant `"complete genome"`.  With that one
change the claim holds: the removal is end-anchored and
case-insensitive, the spec's concrete example yields
`NC_000913.3_Escherichia_coli_str._K-12`, and a header that reduces to
empty falls back to the record's identifier. -/
theorem c7_thm :
    (∀ s : List Char, stripBoiler s = specStripSuffix s) ∧
    build_name_map [("g.fasta".toList,
        ">NC_000913.3_Escherichia_coli_str._K-12_complete_genome\n".toList)]
      = [("g".toList, "NC_000913.3_Escherichia_coli_str._K-12".toList)] ∧
    build_name_map [("g.fasta".toList, ">\n".toList)]
      = [("g".toList, "g".toList)] := by
  refine ⟨stripBoiler_eq_spec, by decide, by decide⟩

/-- A basename never written keeps its initial store value. -/
theorem buildStore_not_mem (tl : List (List Char × List Char)) :
    ∀ (st : List Char → Option (List Char)) (q : List Char),
      q ∉ tl.map (fun f => rewriteBase f.1) → buildStore tl st q = st q := by
  induction tl with
  | nil => intro st q _; rfl
  | cons f tl ih =>
    intro st q h
    have h1 : ¬ q = rewriteBase f.1 := by
      intro hq
      exact h (by simp [hq])
    have h2 : q ∉ tl.map (fun f => rewriteBase f.1) := by
      intro hq
      exact h (by simp [hq])
    simp only [buildStore]
    rw [ih _ _ h2]
    simp only [storeWrite]
    rw [if_neg h1]

/-- With pairwise-distinct rewritten basenames, each source's final file
content is its own normalization (no overwriting). -/
theorem buildStore_mem_nodup (sources : List (List Char × List Char)) :
    ∀ (st : List Char → Option (List Char)) (f : List Char × List Char),
      (sources.map (fun f => rewriteBase f.1)).Nodup → f ∈ sources →
      buildStore sources st (rewriteBase f.1) = some (normContent f.2) := by
  induction sources with
  | nil => intro st f _ hf; simp at hf
  | cons g tl ih =>
    intro st f hnd hf
    have hnd' : rewriteBase g.1 ∉ tl.map (fun f => rewriteBase f.1) ∧
        (tl.map (fun f => rewriteBase f.1)).Nodup := by
      simpa [List.nodup_cons] using hnd
    rcases List.mem_cons.mp hf with rfl | hftl
    · simp only [buildStore]
      rw [buildStore_not_mem tl _ _ hnd'.1]
      simp [storeWrite]
    · simp only [buildStore]
      exact ih _ f hnd'.2 hftl

/-- Every value present in the final store is the normalization of some
source (whatever the overwriting pattern). -/
theorem buildStore_cases (sources : List (List Char × List Char)) :
    ∀ (st : List Char → Option (List Char)) (q : List Char) (v : List Char),
      buildStore sources st q = some v →
      st q = some v ∨
        ∃ g ∈ sources, rewriteBase g.1 = q ∧ v = normContent g.2 := by
  induction sources with
  | nil => intro st q v h; exact Or.inl h
  | cons g tl ih =>
    intro st q v h
    rcases ih _ _ _ h with h1 | h1
    · simp only [storeWrite] at h1
      by_cases hq : q = rewriteBase g.1
      · rw [if_pos hq] at h1
        exact Or.inr ⟨g, by simp, hq.symm, (Option.some.inj h1).symm⟩
      · rw [if_neg hq] at h1
        exact Or.inl h1
    · obtain ⟨g', hg', hh⟩ := h1
      exact Or.inr ⟨g', by simp [hg'], hh⟩

/-- Membership in an insertion step of the sort. -/
theorem mem_insertLe (a p : List Char) :
    ∀ l, p ∈ insertLe a l ↔ p = a ∨ p ∈ l := by
  intro l
  induction l with
  | nil => simp [insertLe]
  | cons b bs ih =>
    simp only [insertLe]
    by_cases h : pathLe a b = true
    · rw [if_pos h]
      simp [List.mem_cons]
    · rw [if_neg h]
      simp only [List.mem_cons, ih]
      tauto

/-- Sorting does not change membership. -/
theorem mem_sortPaths (p : List Char) (l : List (List Char)) :
    p ∈ sortPaths l ↔ p ∈ l := by
  induction l with
  | nil => simp [sortPaths]
  | cons a l ih =>
    simp only [sortPaths, List.foldr_cons] at ih ⊢
    rw [mem_insertLe, ih, List.mem_cons]

/-- C8 (amended): a file that normalizes to zero retained bytes is excluded
without aborting, and if EVERY cleaned file ends up empty the run fails
with the AllInputsEmptied message — unconditionally.  The second half
holds under the proviso that the rewritten basenames are pairwise
distinct: then the run succeeds as soon as one normalization is
non-empty, returning exactly the non-empty cleaned files.  (Without the
proviso a later colliding file can overwrite a non-empty one — see the
counterexample.) -/
theorem c8_thm :
    ∀ sources : List (List Char × List Char),
      (¬ sources = [] →
        (∀ f ∈ sources, normContent f.2 = []) →
        clean_all_fastas sources
          = .error "All cleaned FASTAs are empty after sanitization.") ∧
      ((sources.map (fun f => rewriteBase f.1)).Nodup →
        ∀ f0 ∈ sources, ¬ normContent f0.2 = [] →
        ∃ l, clean_all_fastas sources = .ok l ∧
          ∀ p c, (p, c) ∈ l ↔
            ∃ f ∈ sources,
              rewriteBase f.1 = p ∧ normContent f.2 = c ∧ ¬ c = []) := by
  intro sources
  constructor
  · intro hne hall
    have hkept : keptOf sources = [] := by
      rw [keptOf, List.filter_eq_nil_iff]
      intro p hp
      cases hv : buildStore sources (fun _ => none) p with
      | none => simp [hv]
      | some v =>
        rcases buildStore_cases sources _ p v hv with h1 | h1
        · cases h1
        · obtain ⟨g, hg, _, rfl⟩ := h1
          simp [hv, hall g hg]
    simp only [clean_all_fastas, if_neg hne, if_pos hkept]
  · intro hnd f0 hf0 hne0
    have hsne : ¬ sources = [] := by
      intro h
      rw [h] at hf0
      simp at hf0
    have hkey : buildStore sources (fun _ => none) (rewriteBase f0.1)
        = some (normContent f0.2) :=
      buildStore_mem_nodup sources _ f0 hnd hf0
    have hmemk : rewriteBase f0.1 ∈ keptOf sources := by
      rw [keptOf, List.mem_filter, mem_sortPaths]
      refine ⟨List.mem_map.mpr ⟨f0, hf0, rfl⟩, ?_⟩
      rw [hkey]
      simpa using hne0
    have hkne : ¬ keptOf sources = [] := List.ne_nil_of_mem hmemk
    refine ⟨(keptOf sources).map
        (fun p => (p, (buildStore sources (fun _ => none) p).getD [])), ?_, ?_⟩
    · simp only [clean_all_fastas, if_neg hsne, if_neg hkne]
    · intro p c
      constructor
      · intro hpc
        obtain ⟨p', hp', heq⟩ := List.mem_map.mp hpc
        obtain ⟨rfl, hc⟩ : p' = p ∧
            (buildStore sources (fun _ => none) p').getD [] = c := by
          simpa [Prod.ext_iff] using heq
        rw [keptOf, List.mem_filter, mem_sortPaths] at hp'
        obtain ⟨hpmem, hppred⟩ := hp'
        obtain ⟨f, hf, hbase⟩ := List.mem_map.mp hpmem
        have hstore : buildStore sources (fun _ => none) p'
            = some (normContent f.2) := by
          rw [← hbase]
          exact buildStore_mem_nodup sources _ f hnd hf
        refine ⟨f, hf, hbase, ?_, ?_⟩
        · rw [← hc, hstore]
          rfl
        · rw [hstore] at hppred
          rw [← hc, hstore]
          simpa using hppred
      · rintro ⟨f, hf, hbase, hc, hcne⟩
        have hstore : buildStore sources (fun _ => none) p
            = some (normContent f.2) := by
          rw [← hbase]
          exact buildStore_mem_nodup sources _ f hnd hf
        apply List.mem_map.mpr
        refine ⟨p, ?_, ?_⟩
        · rw [keptOf, List.mem_filter, mem_sortPaths]
          refine ⟨List.mem_map.mpr ⟨f, hf, hbase⟩, ?_⟩
          rw [hstore]
          simp only [Option.getD_some, hc]
          simpa using hcne
        · rw [hstore]
          simp [hc]

/-- C8 witness: a single non-empty source is retained and returned, and a
single source cleaning to empty makes the run fail. -/
theorem c8_thm_w :
    ((([("a.fa".toList, ">x\nACGT\n".toList)].map
        (fun f => rewriteBase f.1)).Nodup ∧
      ¬ normContent ">x\nACGT\n".toList = []) ∧
    ∃ l, clean_all_fastas [("a.fa".toList, ">x\nACGT\n".toList)] = .ok l ∧
      ∀ p c, (p, c) ∈ l ↔
        ∃ f ∈ [("a.fa".toList, ">x\nACGT\n".toList)],
          rewriteBase f.1 = p ∧ normContent f.2 = c ∧ ¬ c = []) ∧
    clean_all_fastas [("b.fa".toList, "!!!".toList)]
      = .error "All cleaned FASTAs are empty after sanitization." :=
  ⟨⟨⟨by decide, by decide⟩,
    (c8_thm [("a.fa".toList, ">x\nACGT\n".toList)]).2 (by decide)
      ("a.fa".toList, ">x\nACGT\n".toList) (by decide) (by decide)⟩,
    (c8_thm [("b.fa".toList, "!!!".toList)]).1 (by decide) (by decide)⟩

/-- The keys after a dict assignment: unchanged on replacement, the new
key appended otherwise. -/
theorem keys_dictInsert (m : NMap) (k v : List Char) :
    (dictInsert m k v).map Prod.fst
      = if k ∈ m.map Prod.fst then m.map Prod.fst
        else m.map Prod.fst ++ [k] := by
  unfold dictInsert
  by_cases h : k ∈ m.map Prod.fst
  · rw [if_pos h, if_pos h, List.map_map]
    apply List.map_congr_left
    intro p _
    by_cases hpk : p.1 = k
    · simp [Function.comp, hpk]
    · simp [Function.comp, hpk]
  · rw [if_neg h, if_neg h, List.map_append]
    rfl

/-- Dict assignment preserves distinctness of the keys. -/
theorem nodup_keys_dictInsert (m : NMap) (k v : List Char)
    (h : (m.map Prod.fst).Nodup) :
    ((dictInsert m k v).map Prod.fst).Nodup := by
  rw [keys_dictInsert]
  by_cases hk : k ∈ m.map Prod.fst
  · rw [if_pos hk]
    exact h
  · rw [if_neg hk, List.nodup_append]
    refine ⟨h, by simp, ?_⟩
    intro a ha hak
    simp only [List.mem_singleton] at hak
    subst hak
    exact hk ha

/-- Key membership after a dict assignment. -/
theorem mem_keys_dictInsert (m : NMap) (k v q : List Char) :
    q ∈ (dictInsert m k v).map Prod.fst ↔ q ∈ m.map Prod.fst ∨ q = k := by
  rw [keys_dictInsert]
  by_cases hk : k ∈ m.map Prod.fst
  · rw [if_pos hk]
    constructor
    · exact Or.inl
    · rintro (h | rfl)
      · exact h
      · exact hk
  · rw [if_neg hk]
    simp [List.mem_append]

/-- The `build_name_map` fold from any starting dict: keys stay distinct,
and the final keys are the starting keys plus the stems of the files. -/
theorem bnm_general (files : List (List Char × List Char)) :
    ∀ mp : NMap, (mp.map Prod.fst).Nodup →
      ((files.foldl bnmStep mp).map Prod.fst).Nodup ∧
      ∀ k, k ∈ (files.foldl bnmStep mp).map Prod.fst ↔
        k ∈ mp.map Prod.fst ∨ ∃ f ∈ files, splitextStem f.1 = k := by
  induction files with
  | nil => intro mp h; simp [h]
  | cons f tl ih =>
    intro mp h
    have h' : ((bnmStep mp f).map Prod.fst).Nodup :=
      nodup_keys_dictInsert mp (splitextStem f.1) _ h
    simp only [List.foldl_cons]
    obtain ⟨ha, hb⟩ := ih (bnmStep mp f) h'
    refine ⟨ha, ?_⟩
    intro k
    rw [hb k]
    simp only [bnmStep, mem_keys_dictInsert, List.mem_cons]
    constructor
    · rintro ((h1 | h1) | ⟨g, hg, hst⟩)
      · exact Or.inl h1
      · exact Or.inr ⟨f, Or.inl rfl, h1.symm⟩
      · exact Or.inr ⟨g, Or.inr hg, hst⟩
    · rintro (h1 | ⟨g, (rfl | hg), hst⟩)
      · exact Or.inl (Or.inl h1)
      · exact Or.inl (Or.inr hst.symm)
      · exact Or.inr ⟨g, hg, hst⟩

/-- C9 (amended): the mapping built by `build_name_map` has pairwise
distinct keys, with exactly one entry per DISTINCT identifier (filename
stem) among the retained files — not one per retained input file, since
two distinct input files may share a stem after basename rewriting (see
the counterexample). -/
theorem c9_thm :
    ∀ (files : List (List Char × List Char)) (k : List Char),
      ((build_name_map files).map Prod.fst).Nodup ∧
      (k ∈ (build_name_map files).map Prod.fst ↔
        ∃ f ∈ files, splitextStem f.1 = k) := by
  intro files k
  obtain ⟨ha, hb⟩ := bnm_general files [] (by simp)
  refine ⟨ha, ?_⟩
  rw [build_name_map, hb k]
  simp

end EcoliPhylo
